import Mathlib

/-!
# Verification of the spreadsheet-corpus analyzer

Shallow embedding of the inference-and-relationship engine implemented by
`scripts/analyze_spreadsheets.py`, `scripts/phased_analyzer.py`,
`scripts/phased_analyzer_v2.py`, `scripts/phased_analyzer_v3.py` and
`scripts/clean_report.py`.

Strings are modelled as `List Char` (`Str`); Python floats are modelled as
exact rationals (`ℚ`); a fallible per-unit computation (Python `try/except`)
is modelled as an `Option`-valued function.  Python `round(x, n)` is modelled
as round-half-up at `n` decimal places.
-/

namespace SpreadsheetAnalyzer

/-- Strings are modelled as lists of characters. -/
abbrev Str := List Char

/-- ASCII lower-casing of one character (code points 65-90 map to 97-122),
the model of Python `str.lower`. -/
def pyLowerChar (c : Char) : Char :=
  if 65 ≤ c.toNat ∧ c.toNat ≤ 90 then Char.ofNat (c.toNat + 32) else c

/-- Characters stripped by Python's no-argument `str.strip()`:
space, tab, newline, carriage return, vertical tab, form feed. -/
def isPySpace (c : Char) : Bool :=
  c.toNat = 32 || c.toNat = 9 || c.toNat = 10 || c.toNat = 13 ||
    c.toNat = 11 || c.toNat = 12

/-- The character class `[a-z0-9]` (code points 97-122 and 48-57) from the
regex in `normalize_col` (`phased_analyzer_v3.py`, line 41). -/
def isLowAlnum (c : Char) : Bool :=
  (97 ≤ c.toNat && c.toNat ≤ 122) || (48 ≤ c.toNat && c.toNat ≤ 57)

/-- Python `s.strip()`: drop leading and trailing whitespace. -/
def pyStrip (s : Str) : Str :=
  ((s.dropWhile isPySpace).reverse.dropWhile isPySpace).reverse

/-- Python `s.strip("_")`: drop leading and trailing underscores. -/
def stripUnderscores (s : Str) : Str :=
  ((s.dropWhile (· = '_')).reverse.dropWhile (· = '_')).reverse

/-- `re.sub(r"[^a-z0-9]+", "_", s)`: collapse each maximal run of
non-`[a-z0-9]` characters to a single underscore.  The flag records whether
the previous character was part of such a run. -/
def collapseNonAlnum : Bool → Str → Str
  | _, [] => []
  | prevRun, c :: rest =>
    if isLowAlnum c then c :: collapseNonAlnum false rest
    else if prevRun then collapseNonAlnum true rest
    else '_' :: collapseNonAlnum true rest

/-- `normalize_col` from `phased_analyzer_v3.py` (lines 40-42):
`s = re.sub(r"[^a-z0-9]+", "_", str(name).lower().strip()); return s.strip("_")`. -/
def normalize_col (name : Str) : Str :=
  stripUnderscores (collapseNonAlnum false (pyStrip (name.map pyLowerChar)))

/-- After one pass of `normalize_col`, every character is a lowercase
alphanumeric or an underscore. -/
lemma collapse_chars : ∀ (b : Bool) (s : Str), ∀ c ∈ collapseNonAlnum b s,
    isLowAlnum c = true ∨ c = '_' := by
  intro b s
  induction s generalizing b with
  | nil => intro c hc; simp [collapseNonAlnum] at hc
  | cons a rest ih =>
    intro c hc
    simp only [collapseNonAlnum] at hc
    by_cases ha : isLowAlnum a
    · simp [ha] at hc
      rcases hc with h | h
      · exact Or.inl (h ▸ ha)
      · exact ih false c h
    · simp [ha] at hc
      by_cases hb : b
      · subst hb; simp at hc; exact ih true c hc
      · simp [hb] at hc
        rcases hc with h | h
        · exact Or.inr h
        · exact ih true c h

/-- The head of a collapse continuing a non-alphanumeric run is alphanumeric. -/
lemma collapse_head_true : ∀ (s : Str) (c : Char),
    (collapseNonAlnum true s).head? = some c → isLowAlnum c = true := by
  intro s
  induction s with
  | nil => intro c hc; simp [collapseNonAlnum] at hc
  | cons a rest ih =>
    intro c hc
    simp only [collapseNonAlnum] at hc
    by_cases ha : isLowAlnum a
    · simp [ha] at hc; exact hc ▸ ha
    · simp [ha] at hc; exact ih c hc

/-- Two adjacent characters are never both non-alphanumeric. -/
def altAlnum (a b : Char) : Prop := isLowAlnum a = true ∨ isLowAlnum b = true

lemma collapse_chain : ∀ (b : Bool) (s : Str),
    List.Chain' altAlnum (collapseNonAlnum b s) := by
  intro b s
  induction s generalizing b with
  | nil => simp [collapseNonAlnum]
  | cons a rest ih =>
    by_cases ha : isLowAlnum a
    · simp only [collapseNonAlnum, ha, if_pos]
      exact List.chain'_cons'.mpr ⟨fun y _ => Or.inl ha, ih false⟩
    · cases b with
      | true => simpa [collapseNonAlnum, ha] using ih true
      | false =>
        have hgoal : collapseNonAlnum false (a :: rest) =
            '_' :: collapseNonAlnum true rest := by
          simp [collapseNonAlnum, ha]
        rw [hgoal]
        exact List.chain'_cons'.mpr
          ⟨fun y hy => Or.inr (collapse_head_true rest y hy), ih true⟩

lemma stripU_subset {c : Char} {l : Str} (h : c ∈ stripUnderscores l) : c ∈ l := by
  unfold stripUnderscores at h
  rw [List.mem_reverse] at h
  have h1 := (List.dropWhile_sublist _).mem h
  rw [List.mem_reverse] at h1
  exact (List.dropWhile_sublist _).mem h1

lemma chain'_stripU {l : Str} (h : List.Chain' altAlnum l) :
    List.Chain' altAlnum (stripUnderscores l) := by
  unfold stripUnderscores
  set p : Char → Bool := fun c => decide (c = '_') with hp
  have h1 : List.Chain' altAlnum (l.dropWhile p) := h.suffix (List.dropWhile_suffix p)
  have h2 : List.Chain' altAlnum (l.dropWhile p).reverse :=
    List.chain'_reverse.mpr (h1.imp fun _ _ hr => hr.symm)
  have h3 : List.Chain' altAlnum ((l.dropWhile p).reverse.dropWhile p) :=
    h2.suffix (List.dropWhile_suffix p)
  exact List.chain'_reverse.mpr (h3.imp fun _ _ hr => hr.symm)

lemma dropWhile_eq_self_of_head? {p : Char → Bool} {l : Str}
    (h : ∀ c, l.head? = some c → p c = false) : l.dropWhile p = l := by
  cases l with
  | nil => rfl
  | cons a t => rw [List.dropWhile_cons, h a rfl]; simp

lemma getLast?_of_suffix_ne_nil {l₁ l₂ : Str} (h : l₁ <:+ l₂) (hne : l₁ ≠ []) :
    l₂.getLast? = l₁.getLast? := by
  obtain ⟨u, rfl⟩ := h
  rw [List.getLast?_append]
  cases hb : l₁.getLast? with
  | none => exact absurd (List.getLast?_eq_none_iff.mp hb) hne
  | some b => rfl

/-- Stripping underscores from both ends is idempotent. -/
lemma stripU_idem (l : Str) :
    stripUnderscores (stripUnderscores l) = stripUnderscores l := by
  unfold stripUnderscores
  set p : Char → Bool := fun c => c = '_' with hp
  set A := l.dropWhile p with hA
  set B := A.reverse.dropWhile p with hB
  by_cases hBnil : B = []
  · simp [hBnil]
  · have hheadA : ∀ c, A.head? = some c → p c = false := by
      intro c hc
      have := List.head?_dropWhile_not p l
      rw [← hA] at this
      rw [hc] at this
      exact this
    have hlast : B.reverse.head? = A.head? := by
      rw [List.head?_reverse,
        ← getLast?_of_suffix_ne_nil (List.dropWhile_suffix p) hBnil,
        List.getLast?_reverse]
    have step1 : B.reverse.dropWhile p = B.reverse := by
      apply dropWhile_eq_self_of_head?
      intro c hc
      exact hheadA c (hlast ▸ hc)
    have step3 : B.dropWhile p = B := by
      apply dropWhile_eq_self_of_head?
      intro c hc
      have := List.head?_dropWhile_not p A.reverse
      rw [← hB] at this
      rw [hc] at this
      exact this
    rw [step1, List.reverse_reverse, step3]

/-- Characters produced by one normalization pass are fixed by lower-casing. -/
lemma pyLowerChar_fix {c : Char} (h : isLowAlnum c = true ∨ c = '_') :
    pyLowerChar c = c := by
  rcases h with h | h
  · unfold pyLowerChar
    rw [if_neg]
    simp [isLowAlnum] at h
    omega
  · subst h; decide

/-- Characters produced by one normalization pass are not whitespace. -/
lemma isPySpace_false {c : Char} (h : isLowAlnum c = true ∨ c = '_') :
    isPySpace c = false := by
  rcases h with h | h
  · simp [isLowAlnum] at h
    simp [isPySpace]
    omega
  · subst h; decide

lemma map_eq_self_of_fix {f : Char → Char} {l : Str} (h : ∀ c ∈ l, f c = c) :
    l.map f = l := by
  induction l with
  | nil => rfl
  | cons a t ih =>
    simp only [List.map_cons, h a (by simp)]
    rw [ih fun c hc => h c (by simp [hc])]

lemma dropWhile_eq_self_of_forall {p : Char → Bool} {l : Str}
    (h : ∀ c ∈ l, p c = false) : l.dropWhile p = l := by
  cases l with
  | nil => rfl
  | cons a t => rw [List.dropWhile_cons, h a (by simp)]; simp

lemma pyStrip_eq_self {l : Str} (h : ∀ c ∈ l, isPySpace c = false) :
    pyStrip l = l := by
  unfold pyStrip
  rw [dropWhile_eq_self_of_forall h,
    dropWhile_eq_self_of_forall (fun c hc => h c (List.mem_reverse.mp hc)),
    List.reverse_reverse]

/-- On an already-collapsed string (only `[a-z0-9_]`, no two adjacent
underscores), the collapse pass is the identity. -/
lemma collapse_id : ∀ t : Str, (∀ c ∈ t, isLowAlnum c = true ∨ c = '_') →
    List.Chain' altAlnum t →
    collapseNonAlnum false t = t ∧
      ((∀ c, t.head? = some c → isLowAlnum c = true) → collapseNonAlnum true t = t) := by
  intro t
  induction t with
  | nil => intro _ _; exact ⟨rfl, fun _ => rfl⟩
  | cons a rest ih =>
    intro hchars hchain
    have hrest := (List.chain'_cons'.mp hchain).2
    have hR := (List.chain'_cons'.mp hchain).1
    have ihr := ih (fun c hc => hchars c (by simp [hc])) hrest
    rcases hchars a (by simp) with ha | ha
    · constructor
      · simp only [collapseNonAlnum, ha, if_pos]
        rw [ihr.1]
      · intro _
        simp only [collapseNonAlnum, ha, if_pos]
        rw [ihr.1]
    · subst ha
      have hna : isLowAlnum '_' = false := by decide
      constructor
      · simp only [collapseNonAlnum, hna]
        simp only [Bool.false_eq_true, if_false]
        rw [ihr.2]
        intro c hc
        rcases hR c hc with h | h
        · exact absurd h (by simp [hna])
        · exact h
      · intro habs
        have := habs '_' rfl
        rw [hna] at this
        exact absurd this (by simp)

/-- The v3 normalizer is idempotent. -/
lemma normalize_col_v3_idem (x : Str) :
    normalize_col (normalize_col x) = normalize_col x := by
  have hchars : ∀ c ∈ normalize_col x, isLowAlnum c = true ∨ c = '_' :=
    fun c hc => collapse_chars false _ c (stripU_subset hc)
  have hchain : List.Chain' altAlnum (normalize_col x) :=
    chain'_stripU (collapse_chain false _)
  have hmap : (normalize_col x).map pyLowerChar = normalize_col x :=
    map_eq_self_of_fix (fun c hc => pyLowerChar_fix (hchars c hc))
  have hstrip : pyStrip (normalize_col x) = normalize_col x :=
    pyStrip_eq_self (fun c hc => isPySpace_false (hchars c hc))
  have hcoll : collapseNonAlnum false (normalize_col x) = normalize_col x :=
    (collapse_id _ hchars hchain).1
  calc normalize_col (normalize_col x)
      = stripUnderscores (collapseNonAlnum false
          (pyStrip ((normalize_col x).map pyLowerChar))) := rfl
    _ = stripUnderscores (normalize_col x) := by rw [hmap, hstrip, hcoll]
    _ = normalize_col x :=
        stripU_idem (collapseNonAlnum false (pyStrip (x.map pyLowerChar)))

/-- `re.sub(r"\s+", "_", s)` from `analyze_spreadsheets.normalize_col`
(line 73): collapse each maximal whitespace run to a single underscore. -/
def collapseWs : Bool → Str → Str
  | _, [] => []
  | prev, c :: rest =>
    if isPySpace c then
      (if prev then collapseWs true rest else '_' :: collapseWs true rest)
    else c :: collapseWs false rest

/-- `normalize_col` from `analyze_spreadsheets.py` (lines 71-75):
`s = str(name).strip().lower(); s = re.sub(r"\s+", "_", s);`
`s = re.sub(r"[^a-z0-9_]+", "", s); return s or "unnamed"`.
(The second `re.sub` deletes every character outside `[a-z0-9_]`, i.e. a
filter; `s or "unnamed"` maps the empty result to the sentinel.) -/
def normalize_col_as (name : Str) : Str :=
  if (collapseWs false ((pyStrip name).map pyLowerChar)).filter
      (fun c => isLowAlnum c || c = '_') = [] then "unnamed".toList
  else (collapseWs false ((pyStrip name).map pyLowerChar)).filter
      (fun c => isLowAlnum c || c = '_')

lemma collapseWs_id : ∀ (b : Bool) (s : Str), (∀ c ∈ s, isPySpace c = false) →
    collapseWs b s = s := by
  intro b s
  induction s generalizing b with
  | nil => intro _; rfl
  | cons a t ih =>
    intro h
    simp only [collapseWs, h a (by simp)]
    simp only [Bool.false_eq_true, if_false]
    rw [ih false fun c hc => h c (by simp [hc])]

lemma filter_eq_self_of_forall {p : Char → Bool} {l : Str}
    (h : ∀ c ∈ l, p c = true) : l.filter p = l := by
  induction l with
  | nil => rfl
  | cons a t ih =>
    rw [List.filter_cons, if_pos (h a (by simp))]
    rw [ih fun c hc => h c (by simp [hc])]

/-- Every character of `normalize_col_as x` is in `[a-z0-9_]`. -/
lemma normalize_col_as_chars (x : Str) :
    ∀ c ∈ normalize_col_as x, isLowAlnum c = true ∨ c = '_' := by
  intro c hc
  unfold normalize_col_as at hc
  by_cases h3 : ((collapseWs false ((pyStrip x).map pyLowerChar)).filter
      (fun c => isLowAlnum c || c = '_')) = []
  · rw [if_pos h3] at hc
    have hl : "unnamed".toList = ['u', 'n', 'n', 'a', 'm', 'e', 'd'] := rfl
    rw [hl] at hc
    simp only [List.mem_cons, List.not_mem_nil, or_false] at hc
    rcases hc with rfl | rfl | rfl | rfl | rfl | rfl | rfl <;> decide
  · rw [if_neg h3] at hc
    have := List.of_mem_filter hc
    simpa using this

/-- The `analyze_spreadsheets` normalizer is idempotent. -/
lemma normalize_col_as_idem (x : Str) :
    normalize_col_as (normalize_col_as x) = normalize_col_as x := by
  have hchars := normalize_col_as_chars x
  have hne : normalize_col_as x ≠ [] := by
    unfold normalize_col_as
    split
    · decide
    · assumption
  set y := normalize_col_as x with hy
  have hstrip : pyStrip y = y :=
    pyStrip_eq_self (fun c hc => isPySpace_false (hchars c hc))
  have hmap : y.map pyLowerChar = y :=
    map_eq_self_of_fix (fun c hc => pyLowerChar_fix (hchars c hc))
  have hws : collapseWs false y = y :=
    collapseWs_id false _ (fun c hc => isPySpace_false (hchars c hc))
  have hfil : y.filter (fun c => isLowAlnum c || c = '_') = y :=
    filter_eq_self_of_forall (fun c hc => by
      rcases hchars c hc with h | h <;> simp [h])
  unfold normalize_col_as
  rw [hstrip, hmap, hws, hfil, if_neg hne]

/-- C2 — the column-name normalizer is idempotent: for every raw name `x`,
`normalize(normalize(x)) = normalize(x)`, both for the v3 normalizer
(`phased_analyzer_v3.py`, lines 40-42) and for the `analyze_spreadsheets`
normalizer (lines 71-75). -/
theorem C2_normalize_idempotent (x : Str) :
    normalize_col (normalize_col x) = normalize_col x ∧
    normalize_col_as (normalize_col_as x) = normalize_col_as x :=
  ⟨normalize_col_v3_idem x, normalize_col_as_idem x⟩

/-! ## Column values and uniqueness ratios -/

/-- One cell of a column; `none` models a null/NaN entry. -/
abbrev Cell := Option Str

/-- Python `round(x, k)` modelled over exact rationals: round half-up at `k`
decimal places (Python's float `round` is half-even, which differs only at
exact decimal midpoints). -/
def pyRound (k : ℕ) (q : ℚ) : ℚ :=
  (⌊q * (10 : ℚ) ^ k + 1 / 2⌋ : ℚ) / (10 : ℚ) ^ k

lemma pyRound_nonneg (k : ℕ) {q : ℚ} (h : 0 ≤ q) : 0 ≤ pyRound k q := by
  unfold pyRound
  apply div_nonneg _ (by positivity)
  have : (0 : ℤ) ≤ ⌊q * (10 : ℚ) ^ k + 1 / 2⌋ := by
    apply Int.le_floor.mpr
    push_cast
    positivity
  exact_mod_cast this

lemma pyRound_le (k : ℕ) {q b : ℚ} (hb : ∃ n : ℤ, (n : ℚ) = b) (h : q ≤ b) :
    pyRound k q ≤ b := by
  obtain ⟨n, rfl⟩ := hb
  unfold pyRound
  rw [div_le_iff₀ (by positivity)]
  have h1 : ⌊q * (10 : ℚ) ^ k + 1 / 2⌋ ≤ ⌊(n : ℚ) * (10 : ℚ) ^ k + 1 / 2⌋ := by
    apply Int.floor_le_floor
    have := mul_le_mul_of_nonneg_right h (by positivity : (0 : ℚ) ≤ (10 : ℚ) ^ k)
    linarith
  have h2 : ⌊(n : ℚ) * (10 : ℚ) ^ k + 1 / 2⌋ = n * 10 ^ k := by
    rw [show (n : ℚ) * (10 : ℚ) ^ k + 1 / 2 = ((n * 10 ^ k : ℤ) : ℚ) + 1 / 2 by
      push_cast; ring]
    rw [Int.floor_int_add]
    norm_num
  calc (⌊q * (10 : ℚ) ^ k + 1 / 2⌋ : ℚ) ≤ ((n * 10 ^ k : ℤ) : ℚ) := by
        exact_mod_cast h1.trans_eq h2
    _ = (n : ℚ) * (10 : ℚ) ^ k := by push_cast; ring

lemma pyRound_intCast (k : ℕ) (n : ℤ) : pyRound k (n : ℚ) = n := by
  unfold pyRound
  have h2 : ⌊(n : ℚ) * (10 : ℚ) ^ k + 1 / 2⌋ = n * 10 ^ k := by
    rw [show (n : ℚ) * (10 : ℚ) ^ k + 1 / 2 = ((n * 10 ^ k : ℤ) : ℚ) + 1 / 2 by
      push_cast; ring]
    rw [Int.floor_int_add]
    norm_num
  rw [h2]
  push_cast
  rw [mul_div_assoc, div_self (by positivity), mul_one]

/-- `ser.dropna().astype(str).str.strip()` — the non-null entries of a
column, stringified and trimmed (`analyze_spreadsheets.py`, line 348/375). -/
def nonNullStripped (col : List Cell) : List Str :=
  (col.filterMap id).map pyStrip

/-- `unique_ratio` from `analyze_spreadsheets.main` (line 386):
`float(non_null.nunique() / max(1, len(non_null))) if len(non_null) else 0.0`. -/
def unique_ratio (col : List Cell) : ℚ :=
  let nn := nonNullStripped col
  if nn.length = 0 then 0 else (nn.dedup.length : ℚ) / max 1 nn.length

/-- The value stored in the column profile: `round(unique_ratio, 4)`
(`analyze_spreadsheets.py`, line 400). -/
def unique_ratio_reported (col : List Cell) : ℚ := pyRound 4 (unique_ratio col)

/-- `ser.nunique()` — the number of distinct non-null values
(`phased_analyzer_v3.py`, line 393). -/
def nuniqV3 (col : List Cell) : ℕ := (col.filterMap id).dedup.length

/-- `uniqueness` from `phased_analyzer_v3.py` (line 396):
`round(nuniq / max(len(ser), 1) * 100, 1)` — note the denominator is the
TOTAL row count of the column, nulls included. -/
def uniqueness_pct_v3 (col : List Cell) : ℚ :=
  pyRound 1 ((nuniqV3 col : ℚ) / (max col.length 1 : ℕ) * 100)

/-- C4 (amended) — in `analyze_spreadsheets`, the uniqueness ratio of a
column with at least one non-null value equals distinct-non-null divided by
non-null count, the reported (4-decimal-rounded) value lies in `[0,1]`, and
a column whose non-null values are all distinct reports exactly `1.0`
regardless of its null entries.  (`phased_analyzer_v3` instead divides by
the total row count including nulls — see the counterexample.) -/
theorem C4_unique_ratio_spec (col : List Cell) (hne : nonNullStripped col ≠ []) :
    unique_ratio col =
      ((nonNullStripped col).dedup.length : ℚ) / (nonNullStripped col).length ∧
    0 ≤ unique_ratio_reported col ∧ unique_ratio_reported col ≤ 1 ∧
    ((nonNullStripped col).Nodup → unique_ratio_reported col = 1) := by
  have hlen : (nonNullStripped col).length ≠ 0 := by
    simpa [List.length_eq_zero] using hne
  have hlen1 : (1 : ℚ) ≤ ((nonNullStripped col).length : ℚ) := by
    exact_mod_cast Nat.one_le_iff_ne_zero.mpr hlen
  have hlenpos : (0 : ℚ) < ((nonNullStripped col).length : ℚ) := by linarith
  have hval : unique_ratio col =
      ((nonNullStripped col).dedup.length : ℚ) / (nonNullStripped col).length := by
    unfold unique_ratio
    rw [if_neg hlen, Nat.max_eq_right (Nat.one_le_iff_ne_zero.mpr hlen)]
  have hdedup_le : ((nonNullStripped col).dedup.length : ℚ) ≤
      ((nonNullStripped col).length : ℚ) := by
    exact_mod_cast ((nonNullStripped col).dedup_sublist).length_le
  have h01 : 0 ≤ unique_ratio col ∧ unique_ratio col ≤ 1 := by
    rw [hval]
    constructor
    · positivity
    · rw [div_le_one hlenpos]; exact hdedup_le
  refine ⟨hval, pyRound_nonneg 4 h01.1, pyRound_le 4 ⟨1, by norm_num⟩ h01.2, ?_⟩
  intro hnodup
  have : unique_ratio col = 1 := by
    rw [hval, List.dedup_eq_self.mpr hnodup, div_self (ne_of_gt hlenpos)]
  unfold unique_ratio_reported
  rw [this]
  exact_mod_cast pyRound_intCast 4 1

/-- Witness for C4: the column `["a", "b"]` (no nulls, all distinct)
reports uniqueness ratio exactly 1. -/
theorem C4_unique_ratio_spec_witness :
    unique_ratio_reported [some ['a'], some ['b']] = 1 :=
  (C4_unique_ratio_spec [some ['a'], some ['b']] (by decide)).2.2.2 (by decide)

/-- C4 counterexample — the claim fails on `phased_analyzer_v3`: the column
`["a", null]` has all-distinct non-null values (so the claim demands
uniqueness 100%), but v3 reports `round(1 / 2 * 100, 1) = 50.0` because its
denominator counts the null row. -/
theorem C4_counterexample :
    nonNullStripped [some ['a'], none] = [['a']] ∧
    (nonNullStripped [some ['a'], none]).Nodup ∧
    uniqueness_pct_v3 [some ['a'], none] = 50 ∧ (50 : ℚ) ≠ 100 := by
  refine ⟨rfl, by decide, ?_, by norm_num⟩
  have h1 : nuniqV3 [some ['a'], none] = 1 := by decide
  have h2 : max ([some ['a'], none] : List Cell).length 1 = 2 := by decide
  unfold uniqueness_pct_v3
  rw [h1, h2]
  unfold pyRound
  norm_num

/-! ## PK / FK candidate detection -/

/-- One row of `deep_profiles` (`phased_analyzer_v3.py`, lines 398-406),
restricted to the fields the relationship detector reads: file, sheet,
normalized column name and uniqueness percentage. -/
structure ColProfile where
  file : Str
  sheet : Str
  norm : Str
  uniq : ℚ
deriving DecidableEq

/-- First-occurrence deduplication: the iteration order of the keys of a
Python dict built by successive insertion. -/
def dedupKeepFirstAux (seen : List Str) : List Str → List Str
  | [] => []
  | a :: t =>
    if a ∈ seen then dedupKeepFirstAux seen t
    else a :: dedupKeepFirstAux (a :: seen) t

def dedupKeepFirst (l : List Str) : List Str := dedupKeepFirstAux [] l

lemma mem_dedupKeepFirstAux {a : Str} :
    ∀ {l seen : List Str}, a ∈ dedupKeepFirstAux seen l ↔ a ∈ l ∧ a ∉ seen := by
  intro l
  induction l with
  | nil => intro seen; simp [dedupKeepFirstAux]
  | cons b t ih =>
    intro seen
    by_cases hb : b ∈ seen
    · simp only [dedupKeepFirstAux, if_pos hb, ih, List.mem_cons]
      constructor
      · rintro ⟨h1, h2⟩; exact ⟨Or.inr h1, h2⟩
      · rintro ⟨h1 | h1, h2⟩
        · exact absurd (h1 ▸ hb) h2
        · exact ⟨h1, h2⟩
    · simp only [dedupKeepFirstAux, if_neg hb, List.mem_cons, ih]
      constructor
      · rintro (rfl | ⟨h1, h2⟩)
        · exact ⟨Or.inl rfl, hb⟩
        · simp at h2
          exact ⟨Or.inr h1, h2.2⟩
      · rintro ⟨h1 | h1, h2⟩
        · exact Or.inl h1
        · by_cases hab : a = b
          · exact Or.inl hab
          · exact Or.inr ⟨h1, by simp [hab, h2]⟩

lemma mem_dedupKeepFirst {a : Str} {l : List Str} :
    a ∈ dedupKeepFirst l ↔ a ∈ l := by
  unfold dedupKeepFirst
  rw [mem_dedupKeepFirstAux]
  simp

/-- `col_sheet_map[nc]` (`phased_analyzer_v3.py`, lines 423-427): the
`(file, sheet, uniqueness)` locations of a normalized column name, in
profile order; profiles with an empty normalized name are skipped. -/
def locsOf (ps : List ColProfile) (nc : Str) : List (Str × Str × ℚ) :=
  (ps.filter (fun p => decide (p.norm ≠ [] ∧ p.norm = nc))).map
    (fun p => (p.file, p.sheet, p.uniq))

/-- The keys of `col_sheet_map` in insertion (first-appearance) order. -/
def normKeys (ps : List ColProfile) : List Str :=
  dedupKeepFirst ((ps.map (·.norm)).filter (fun n => decide (n ≠ [])))

lemma mem_normKeys {ps : List ColProfile} {p : ColProfile}
    (hp : p ∈ ps) (hne : p.norm ≠ []) : p.norm ∈ normKeys ps := by
  unfold normKeys
  rw [mem_dedupKeepFirst, List.mem_filter]
  exact ⟨List.mem_map_of_mem _ hp, by simpa using hne⟩

lemma mem_locsOf {ps : List ColProfile} {p : ColProfile}
    (hp : p ∈ ps) (hne : p.norm ≠ []) :
    (p.file, p.sheet, p.uniq) ∈ locsOf ps p.norm := by
  unfold locsOf
  apply List.mem_map_of_mem
  rw [List.mem_filter]
  exact ⟨hp, by simp [hne]⟩

/-- `pk_candidates` (`phased_analyzer_v3.py`, lines 429-436): for each
column name occurring in ≥ 2 locations, the locations with uniqueness
strictly above 70 (percent), if any. -/
def pk_candidates (ps : List ColProfile) : List (Str × List (Str × Str × ℚ)) :=
  (normKeys ps).filterMap (fun nc =>
    if (locsOf ps nc).length < 2 then none
    else if (locsOf ps nc).filter (fun l => decide (70 < l.2.2)) = [] then none
    else some (nc, (locsOf ps nc).filter (fun l => decide (70 < l.2.2))))

/-- One emitted FK candidate edge (`phased_analyzer_v3.py`, lines 440-441). -/
structure FkPair where
  column : Str
  pk_file : Str
  pk_sheet : Str
  pk_uniq : ℚ
  fk_file : Str
  fk_sheet : Str
  fk_uniq : ℚ
deriving DecidableEq

/-- `fk_pairs` (`phased_analyzer_v3.py`, lines 430-441): for each column
name in ≥ 2 locations with at least one high (> 70) and one low (≤ 70)
location, one directed edge per high × low pair. -/
def fk_pairs (ps : List ColProfile) : List FkPair :=
  (normKeys ps).flatMap (fun nc =>
    if (locsOf ps nc).length < 2 then []
    else if (locsOf ps nc).filter (fun l => decide (70 < l.2.2)) ≠ [] ∧
        (locsOf ps nc).filter (fun l => decide (l.2.2 ≤ 70)) ≠ [] then
      ((locsOf ps nc).filter (fun l => decide (70 < l.2.2))).flatMap (fun h =>
        ((locsOf ps nc).filter (fun l => decide (l.2.2 ≤ 70))).map (fun l =>
          ⟨nc, h.1, h.2.1, h.2.2, l.1, l.2.1, l.2.2⟩))
    else [])

lemma two_le_length_of_mem_ne {α : Type} {a b : α} {l : List α}
    (ha : a ∈ l) (hb : b ∈ l) (hab : a ≠ b) : 2 ≤ l.length := by
  match l with
  | [] => simp at ha
  | [x] =>
    simp at ha hb
    exact absurd (ha.trans hb.symm) hab
  | _ :: _ :: _ => simp [List.length]

/-- C5 — PK boundary is exclusive and emission is complete: no emitted PK
location has uniqueness ≤ 70 (in particular none with exactly 70), and every
profile with nonempty normalized name, uniqueness strictly above 70 and at
least two locations for its column is emitted among that column's PK
candidate locations (`phased_analyzer_v3.py`, lines 429-436). -/
theorem C5_pk_boundary (ps : List ColProfile) :
    (∀ e ∈ pk_candidates ps, ∀ loc ∈ e.2, 70 < loc.2.2) ∧
    (∀ p ∈ ps, p.norm ≠ [] → 70 < p.uniq → 2 ≤ (locsOf ps p.norm).length →
      ∃ e ∈ pk_candidates ps, e.1 = p.norm ∧ (p.file, p.sheet, p.uniq) ∈ e.2) := by
  constructor
  · intro e he loc hloc
    unfold pk_candidates at he
    rw [List.mem_filterMap] at he
    obtain ⟨nc, _, hf⟩ := he
    by_cases h2 : (locsOf ps nc).length < 2
    · rw [if_pos h2] at hf; simp at hf
    · rw [if_neg h2] at hf
      by_cases hh : (locsOf ps nc).filter (fun l => decide (70 < l.2.2)) = []
      · rw [if_pos hh] at hf; simp at hf
      · rw [if_neg hh] at hf
        have he2 : e = (nc, (locsOf ps nc).filter (fun l => decide (70 < l.2.2))) := by
          exact (Option.some_inj.mp hf).symm
        subst he2
        have := List.of_mem_filter hloc
        simpa using this
  · intro p hp hne hu h2
    have hmemhigh : (p.file, p.sheet, p.uniq) ∈
        (locsOf ps p.norm).filter (fun l => decide (70 < l.2.2)) :=
      List.mem_filter.mpr ⟨mem_locsOf hp hne, by simpa using hu⟩
    refine ⟨(p.norm, (locsOf ps p.norm).filter (fun l => decide (70 < l.2.2))),
      ?_, rfl, hmemhigh⟩
    unfold pk_candidates
    rw [List.mem_filterMap]
    refine ⟨p.norm, mem_normKeys hp hne, ?_⟩
    rw [if_neg (not_lt.mpr h2), if_neg (List.ne_nil_of_mem hmemhigh)]

/-- Witness input for the PK/FK theorems: one high-uniqueness and one
low-uniqueness location of the same column `k` in two files. -/
def psPK : List ColProfile :=
  [⟨['f', '1'], ['s'], ['k'], 100⟩, ⟨['f', '2'], ['s'], ['k'], 10⟩]

/-- Witness for C5 at a concrete input. -/
theorem C5_pk_boundary_witness :
    ∃ e ∈ pk_candidates psPK,
      e.1 = ['k'] ∧ ((['f', '1'], ['s'], (100 : ℚ))) ∈ e.2 :=
  (C5_pk_boundary psPK).2 ⟨['f', '1'], ['s'], ['k'], 100⟩ (List.Mem.head _)
    (by decide) (by norm_num) (by decide)

/-- C6 (amended) — in `phased_analyzer_v3`, every high × low pair of
locations of a shared nonempty column name yields an FK candidate edge, with
no truncation.  (`clean_report.py` instead caps each side at its first 3
locations and requires the column to span ≥ 2 distinct files — see the
counterexample.) -/
theorem C6_fk_all_pairs (ps : List ColProfile) (p q : ColProfile)
    (hp : p ∈ ps) (hq : q ∈ ps) (hnorm : q.norm = p.norm) (hne : p.norm ≠ [])
    (hpu : 70 < p.uniq) (hqu : q.uniq ≤ 70) :
    (⟨p.norm, p.file, p.sheet, p.uniq, q.file, q.sheet, q.uniq⟩ : FkPair) ∈
      fk_pairs ps := by
  have hploc : (p.file, p.sheet, p.uniq) ∈ locsOf ps p.norm := mem_locsOf hp hne
  have hqloc : (q.file, q.sheet, q.uniq) ∈ locsOf ps p.norm := by
    rw [← hnorm]
    exact mem_locsOf hq (hnorm ▸ hne)
  have hlen : 2 ≤ (locsOf ps p.norm).length := by
    apply two_le_length_of_mem_ne hploc hqloc
    intro heq
    have : p.uniq = q.uniq := congrArg (fun t => t.2.2) heq
    linarith
  have hmemhigh : (p.file, p.sheet, p.uniq) ∈
      (locsOf ps p.norm).filter (fun l => decide (70 < l.2.2)) :=
    List.mem_filter.mpr ⟨hploc, by simpa using hpu⟩
  have hmemlow : (q.file, q.sheet, q.uniq) ∈
      (locsOf ps p.norm).filter (fun l => decide (l.2.2 ≤ 70)) :=
    List.mem_filter.mpr ⟨hqloc, by simpa using hqu⟩
  unfold fk_pairs
  rw [List.mem_flatMap]
  refine ⟨p.norm, mem_normKeys hp hne, ?_⟩
  rw [if_neg (not_lt.mpr hlen),
    if_pos ⟨List.ne_nil_of_mem hmemhigh, List.ne_nil_of_mem hmemlow⟩]
  rw [List.mem_flatMap]
  exact ⟨(p.file, p.sheet, p.uniq), hmemhigh,
    List.mem_map_of_mem _ hmemlow⟩

/-- Witness for C6 at a concrete input. -/
theorem C6_fk_all_pairs_witness :
    (⟨['k'], ['f', '1'], ['s'], 100, ['f', '2'], ['s'], 10⟩ : FkPair) ∈
      fk_pairs psPK :=
  C6_fk_all_pairs psPK ⟨['f', '1'], ['s'], ['k'], 100⟩
    ⟨['f', '2'], ['s'], ['k'], 10⟩ (List.Mem.head _)
    (List.Mem.tail _ (List.Mem.head _)) rfl (by decide) (by norm_num)
    (by norm_num)

/-! ### The `clean_report.py` FK generator (truncating) -/

/-- `named_dd` (`clean_report.py`, line 25): data-dictionary rows whose
normalized column name does not start with `unnamed_`. -/
def named_dd (rows : List ColProfile) : List ColProfile :=
  rows.filter (fun r => !("unnamed_".toList.isPrefixOf r.norm))

/-- `col_sheet_map[nc]` of `clean_report.py` (lines 46-51): locations of a
normalized name among the named rows (no empty-name skip here). -/
def locsOfClean (rows : List ColProfile) (nc : Str) : List (Str × Str × ℚ) :=
  ((named_dd rows).filter (fun p => decide (p.norm = nc))).map
    (fun p => (p.file, p.sheet, p.uniq))

def normKeysClean (rows : List ColProfile) : List Str :=
  dedupKeepFirst ((named_dd rows).map (·.norm))

/-- `fk_pairs` from `clean_report.py` (lines 56-70): requires the column to
appear in ≥ 2 distinct files and emits edges only for `high[:3] × low[:3]` —
each side truncated to its first three locations. -/
def fk_pairs_clean (rows : List ColProfile) : List FkPair :=
  (normKeysClean rows).flatMap (fun nc =>
    if (dedupKeepFirst ((locsOfClean rows nc).map (·.1))).length < 2 then []
    else if (locsOfClean rows nc).filter (fun l => decide (70 < l.2.2)) ≠ [] ∧
        (locsOfClean rows nc).filter (fun l => decide (l.2.2 ≤ 70)) ≠ [] then
      (((locsOfClean rows nc).filter (fun l => decide (70 < l.2.2))).take 3).flatMap
        (fun h => (((locsOfClean rows nc).filter
            (fun l => decide (l.2.2 ≤ 70))).take 3).map (fun l =>
          ⟨nc, h.1, h.2.1, h.2.2, l.1, l.2.1, l.2.2⟩))
    else [])

/-- Input on which `clean_report.py` truncates: four high-uniqueness
locations of column `k` (files f1-f4) and one low-uniqueness location (f5). -/
def cleanRows : List ColProfile :=
  [⟨['f', '1'], ['s'], ['k'], 100⟩, ⟨['f', '2'], ['s'], ['k'], 99⟩,
   ⟨['f', '3'], ['s'], ['k'], 98⟩, ⟨['f', '4'], ['s'], ['k'], 97⟩,
   ⟨['f', '5'], ['s'], ['k'], 10⟩]

/-- C6 counterexample — the claim fails on `clean_report.py`: with four
high locations and one low location of column `k`, the claim demands all
four high × low edges, but `clean_report.py` emits only the first three
(`high[:3]`), dropping the edge from the fourth high location (file f4). -/
theorem C6_counterexample :
    (⟨['k'], ['f', '4'], ['s'], 97, ['f', '5'], ['s'], 10⟩ : FkPair) ∉
      fk_pairs_clean cleanRows ∧
    (fk_pairs_clean cleanRows).length = 3 := by
  constructor
  · decide
  · decide

/-! ## Incrementing-integer-id pattern detection -/

/-- `[0-9]` (code points 48-57). -/
def isDigitC (c : Char) : Bool := 48 ≤ c.toNat && c.toNat ≤ 57

/-- Numeric value of a digit string. -/
def natOfDigits (l : Str) : ℕ := l.foldl (fun n c => n * 10 + (c.toNat - 48)) 0

/-- Decimal-literal parser for an unsigned number: digits with an optional
fractional part. -/
def parseUnsigned (s : Str) : Option ℚ :=
  if s.takeWhile isDigitC = [] then none
  else match s.dropWhile isDigitC with
    | [] => some ((natOfDigits (s.takeWhile isDigitC) : ℕ) : ℚ)
    | '.' :: frac =>
        if frac ≠ [] ∧ frac.all isDigitC then
          some (((natOfDigits (s.takeWhile isDigitC) : ℕ) : ℚ) +
            ((natOfDigits frac : ℕ) : ℚ) / (10 : ℚ) ^ frac.length)
        else none
    | _ => none

/-- Model of `pd.to_numeric(..., errors="coerce")` on one trimmed string:
an optional sign followed by a decimal literal; anything else coerces to
null (`none`). -/
def parseNum (s : Str) : Option ℚ :=
  match s with
  | [] => none
  | '-' :: rest => (parseUnsigned rest).map (fun q => -q)
  | '+' :: rest => parseUnsigned rest
  | _ => parseUnsigned s

/-- Ascending insertion sort: the model of `.sort_values()`. -/
def insertSorted (x : ℚ) : List ℚ → List ℚ
  | [] => [x]
  | y :: t => if x ≤ y then x :: y :: t else y :: insertSorted x t

def sortNums (l : List ℚ) : List ℚ := l.foldr insertSorted []

/-- `np.diff`: consecutive differences of a list. -/
def consecDiffs : List ℚ → List ℚ
  | [] => []
  | [_] => []
  | a :: b :: t => (b - a) :: consecDiffs (b :: t)

/-- `id_incremental` from `analyze_spreadsheets.detect_patterns`
(lines 135-141): sort the numeric-coercible values; if there are more than
5 of them and more than 75% of the consecutive differences equal 1, report
every numeric value as a hit (`id_incremental = len(num_vals)`). -/
def id_incremental (values : List Cell) : ℕ :=
  if 5 < (sortNums ((nonNullStripped values).filterMap parseNum)).length then
    if 0 < (consecDiffs (sortNums ((nonNullStripped values).filterMap parseNum))).length ∧
        (3 / 4 : ℚ) <
          (((consecDiffs (sortNums ((nonNullStripped values).filterMap
              parseNum))).countP (fun d => decide (d = 1)) : ℕ) : ℚ) /
            ((consecDiffs (sortNums ((nonNullStripped values).filterMap
              parseNum))).length : ℚ) then
      (sortNums ((nonNullStripped values).filterMap parseNum)).length
    else 0
  else 0

/-- The column of Scenario C: values `["1","2","3","4","5","6"]`. -/
def sample6 : List Cell :=
  [some ['1'], some ['2'], some ['3'], some ['4'], some ['5'], some ['6']]

/-- C8 (amended) — on the sample `["1",…,"6"]` the diff-based rule of
`analyze_spreadsheets.detect_patterns` reports `id_incremental = 6`: all six
values counted as hits, a 100% hit-rate.  (`phased_analyzer_v3` has no such
rule; its `incremental_id` regex `^\d{4,}$` matches none of these values —
see the counterexample.) -/
theorem C8_incremental_id_scenario :
    id_incremental sample6 = 6 ∧ (nonNullStripped sample6).length = 6 := by
  have h2 : (nonNullStripped sample6).filterMap parseNum =
      [(1 : ℚ), 2, 3, 4, 5, 6] := by
    have h : (nonNullStripped sample6).filterMap parseNum =
        [((1 : ℕ) : ℚ), ((2 : ℕ) : ℚ), ((3 : ℕ) : ℚ),
         ((4 : ℕ) : ℚ), ((5 : ℕ) : ℚ), ((6 : ℕ) : ℚ)] := rfl
    rw [h]
    norm_num
  have h3 : sortNums [(1 : ℚ), 2, 3, 4, 5, 6] = [1, 2, 3, 4, 5, 6] := by
    norm_num [sortNums, insertSorted]
  have h4 : consecDiffs [(1 : ℚ), 2, 3, 4, 5, 6] = [1, 1, 1, 1, 1] := by
    norm_num [consecDiffs]
  have h5 : ([(1 : ℚ), 1, 1, 1, 1].countP (fun d => decide (d = 1))) = 5 := by
    norm_num [List.countP, List.countP.go]
  constructor
  · unfold id_incremental
    rw [h2, h3, h4, h5]
    norm_num
  · rfl

/-- The `incremental_id` regex of `phased_analyzer_v3.py` (line 72):
`^\d{4,}$` — at least four digits spanning the whole string. -/
def matchesIncrementalIdV3 (s : Str) : Bool :=
  decide (4 ≤ s.length) && s.all isDigitC

/-- `series.dropna().astype(str).head(200)` then per-value `.strip()`
(`phased_analyzer_v3.detect_patterns`, lines 75-84). -/
def nonNullV3 (values : List Cell) : List Str :=
  ((values.filterMap id).take 200).map pyStrip

/-- Whether v3's `detect_patterns` reports `incremental_id` for a column:
hit fraction strictly above 0.15 of a non-empty sample. -/
def v3_incremental_id_reported (values : List Cell) : Bool :=
  decide (nonNullV3 values ≠ []) &&
    decide ((15 / 100 : ℚ) <
      (((nonNullV3 values).countP matchesIncrementalIdV3 : ℕ) : ℚ) /
        ((nonNullV3 values).length : ℚ))

/-- C8 counterexample — the claim fails on `phased_analyzer_v3`: its
`incremental_id` pattern is the regex `^\d{4,}$`, which matches none of the
one-digit values `"1"…"6"`, so v3 reports no incrementing-id pattern (hit
count 0, not the claimed 100%). -/
theorem C8_counterexample :
    (nonNullV3 sample6).countP matchesIncrementalIdV3 = 0 ∧
    v3_incremental_id_reported sample6 = false ∧ (0 : ℕ) ≠ 6 := by
  refine ⟨by decide, ?_, by decide⟩
  have h : (nonNullV3 sample6).countP matchesIncrementalIdV3 = 0 := by decide
  have hlen : (nonNullV3 sample6).length = 6 := by decide
  unfold v3_incremental_id_reported
  rw [h, hlen]
  norm_num

/-! ## Structural fingerprints and redundancy groups -/

/-- Tail of a `"|"`-join: each further part is preceded by a separator. -/
def joinBarTail : List Str → Str
  | [] => []
  | p :: ps => '|' :: (p ++ joinBarTail ps)

/-- `"|".join(parts)`. -/
def joinBar : List Str → Str
  | [] => []
  | p :: ps => p ++ joinBarTail ps

/-- The set of nonempty normalized column names of a sheet record
(`set(n for n in rec["norm_cols"] if n)`). -/
def normColSet (cols : List Str) : Finset Str :=
  (cols.filter (fun n => decide (n ≠ []))).toFinset

/-- `sorted(set(n for n in rec["norm_cols"] if n))`. -/
def sortedNormCols (cols : List Str) : List Str :=
  List.insertionSort (· ≤ ·) ((cols.filter (fun n => decide (n ≠ []))).dedup)

/-- `sig` from `phased_analyzer_v3.py` (line 452):
`"|".join(sorted(set(n for n in rec["norm_cols"] if n))[:30])`.
The md5 hex digest taken of this string is modelled as an injective
function, so the fingerprint is identified with the signature string. -/
def sheet_sig (cols : List Str) : Str := joinBar ((sortedNormCols cols).take 30)

/-- Two sheets land in the same redundancy group iff their fingerprints
(md5 of `sheet_sig`, modelled as the signature itself) coincide
(`phased_analyzer_v3.py`, lines 450-455). -/
def sameRedundancyGroup (c₁ c₂ : List Str) : Bool :=
  decide (sheet_sig c₁ = sheet_sig c₂)

lemma append_sep_inj : ∀ {a₁ a₂ x₁ x₂ : Str},
    ('|' : Char) ∉ a₁ → ('|' : Char) ∉ a₂ →
    (x₁ = [] ∨ ∃ t, x₁ = '|' :: t) → (x₂ = [] ∨ ∃ t, x₂ = '|' :: t) →
    a₁ ++ x₁ = a₂ ++ x₂ → a₁ = a₂ ∧ x₁ = x₂ := by
  intro a₁
  induction a₁ with
  | nil =>
    intro a₂ x₁ x₂ h₁ h₂ hx₁ hx₂ h
    cases a₂ with
    | nil => exact ⟨rfl, h⟩
    | cons c a₂' =>
      simp only [List.nil_append, List.cons_append] at h
      rcases hx₁ with rfl | ⟨t, rfl⟩
      · exact absurd h.symm (List.cons_ne_nil _ _)
      · have : c = '|' := (List.cons.injEq _ _ _ _ ▸ h).1.symm
        exact absurd (this ▸ List.mem_cons_self c a₂') h₂
  | cons c₁ a₁' ih =>
    intro a₂ x₁ x₂ h₁ h₂ hx₁ hx₂ h
    cases a₂ with
    | nil =>
      simp only [List.cons_append, List.nil_append] at h
      rcases hx₂ with rfl | ⟨t, rfl⟩
      · exact absurd h (List.cons_ne_nil _ _)
      · have : c₁ = '|' := (List.cons.injEq _ _ _ _ ▸ h).1
        exact absurd (this ▸ List.mem_cons_self c₁ a₁') h₁
    | cons c₂ a₂' =>
      simp only [List.cons_append, List.cons.injEq] at h
      obtain ⟨rfl, htail⟩ := h
      have hrec := ih (fun hm => h₁ (List.mem_cons_of_mem _ hm))
        (fun hm => h₂ (List.mem_cons_of_mem _ hm)) hx₁ hx₂ htail
      exact ⟨by rw [hrec.1], hrec.2⟩

lemma joinBarTail_shape (l : List Str) :
    joinBarTail l = [] ∨ ∃ t, joinBarTail l = '|' :: t := by
  cases l with
  | nil => exact Or.inl rfl
  | cons p ps => exact Or.inr ⟨_, rfl⟩

lemma joinBar_inj : ∀ {l₁ l₂ : List Str},
    (∀ p ∈ l₁, p ≠ [] ∧ ('|' : Char) ∉ p) →
    (∀ p ∈ l₂, p ≠ [] ∧ ('|' : Char) ∉ p) →
    joinBar l₁ = joinBar l₂ → l₁ = l₂ := by
  intro l₁
  induction l₁ with
  | nil =>
    intro l₂ _ h₂ h
    cases l₂ with
    | nil => rfl
    | cons p ps =>
      exfalso
      have hp := (h₂ p (by simp)).1
      cases hpc : p with
      | nil => exact hp hpc
      | cons c t =>
        rw [hpc] at h
        simp [joinBar] at h
  | cons p₁ t₁ ih =>
    intro l₂ h₁ h₂ h
    cases l₂ with
    | nil =>
      exfalso
      have hp := (h₁ p₁ (by simp)).1
      cases hpc : p₁ with
      | nil => exact hp hpc
      | cons c t =>
        rw [hpc] at h
        simp [joinBar] at h
    | cons p₂ t₂ =>
      simp only [joinBar] at h
      have hsep := append_sep_inj (h₁ p₁ (by simp)).2 (h₂ p₂ (by simp)).2
        (joinBarTail_shape t₁) (joinBarTail_shape t₂) h
      obtain ⟨rfl, htails⟩ := hsep
      have ht : t₁ = t₂ := by
        cases t₁ with
        | nil =>
          cases t₂ with
          | nil => rfl
          | cons q qs => simp [joinBarTail] at htails
        | cons q₁ qs₁ =>
          cases t₂ with
          | nil => simp [joinBarTail] at htails
          | cons q₂ qs₂ =>
            simp only [joinBarTail, List.cons.injEq] at htails
            exact ih (fun p hp => h₁ p (List.mem_cons_of_mem _ hp))
              (fun p hp => h₂ p (List.mem_cons_of_mem _ hp))
              (by simpa [joinBar] using htails.2)
      rw [ht]

lemma sortedNormCols_perm (c : List Str) :
    List.Perm (sortedNormCols c) ((c.filter (fun n => decide (n ≠ []))).dedup) :=
  List.perm_insertionSort _ _

lemma sortedNormCols_sorted (c : List Str) :
    List.Sorted (· ≤ ·) (sortedNormCols c) :=
  List.sorted_insertionSort _ _

lemma sortedNormCols_toFinset (c : List Str) :
    (sortedNormCols c).toFinset = normColSet c := by
  unfold normColSet
  rw [List.toFinset_eq_of_perm _ _ (sortedNormCols_perm c)]
  rw [List.toFinset_eq_iff_perm_dedup, List.dedup_idem]

lemma sortedNormCols_length (c : List Str) :
    (sortedNormCols c).length = (normColSet c).card := by
  unfold normColSet
  rw [List.card_toFinset]
  exact (sortedNormCols_perm c).length_eq

lemma mem_sortedNormCols {c : List Str} {p : Str}
    (hp : p ∈ sortedNormCols c) : p ∈ c ∧ p ≠ [] := by
  have h1 := ((sortedNormCols_perm c).mem_iff).mp hp
  rw [List.mem_dedup, List.mem_filter] at h1
  exact ⟨h1.1, by simpa using h1.2⟩

/-- C7 (amended) — v3's redundancy fingerprint is computed from the sorted,
deduplicated, nonempty NORMALIZED (pre-merge) column names, truncated to the
first 30: sheets with identical normalized column sets always share a
fingerprint, and sheets with different normalized column sets get different
fingerprints provided each set has at most 30 names (beyond the cap, sets
differing only above the first 30 sorted names collide — see the
counterexample).  Column names are normalizer outputs, hence `'|'`-free. -/
theorem C7_fingerprint_spec (c₁ c₂ : List Str)
    (hbar₁ : ∀ n ∈ c₁, ('|' : Char) ∉ n) (hbar₂ : ∀ n ∈ c₂, ('|' : Char) ∉ n) :
    (normColSet c₁ = normColSet c₂ → sameRedundancyGroup c₁ c₂ = true) ∧
    ((normColSet c₁).card ≤ 30 → (normColSet c₂).card ≤ 30 →
      normColSet c₁ ≠ normColSet c₂ → sameRedundancyGroup c₁ c₂ = false) := by
  constructor
  · intro h
    have hperm : List.Perm (sortedNormCols c₁) (sortedNormCols c₂) := by
      refine (sortedNormCols_perm c₁).trans
        (List.Perm.trans ?_ (sortedNormCols_perm c₂).symm)
      exact List.toFinset_eq_iff_perm_dedup.mp h
    have heq : sortedNormCols c₁ = sortedNormCols c₂ :=
      List.eq_of_perm_of_sorted hperm (sortedNormCols_sorted c₁)
        (sortedNormCols_sorted c₂)
    simp [sameRedundancyGroup, sheet_sig, heq]
  · intro h1 h2 hne
    rw [Bool.eq_false_iff]
    intro habs
    apply hne
    have hsig : sheet_sig c₁ = sheet_sig c₂ := of_decide_eq_true habs
    unfold sheet_sig at hsig
    have ht₁ : (sortedNormCols c₁).take 30 = sortedNormCols c₁ :=
      List.take_of_length_le (by rw [sortedNormCols_length]; exact h1)
    have ht₂ : (sortedNormCols c₂).take 30 = sortedNormCols c₂ :=
      List.take_of_length_le (by rw [sortedNormCols_length]; exact h2)
    rw [ht₁, ht₂] at hsig
    have hlists : sortedNormCols c₁ = sortedNormCols c₂ := by
      apply joinBar_inj _ _ hsig
      · intro p hp
        have := mem_sortedNormCols hp
        exact ⟨this.2, hbar₁ p this.1⟩
      · intro p hp
        have := mem_sortedNormCols hp
        exact ⟨this.2, hbar₂ p this.1⟩
    rw [← sortedNormCols_toFinset c₁, ← sortedNormCols_toFinset c₂, hlists]

/-- 30 column names (already in lexicographic order). -/
def colsB : List Str :=
  [['a'], ['b'], ['c'], ['d'], ['e'], ['f'], ['g'], ['h'], ['i'], ['j'],
   ['k'], ['l'], ['m'], ['n'], ['o'], ['p'], ['q'], ['r'], ['s'], ['t'],
   ['u'], ['v'], ['w'], ['x'], ['y'], ['z'], ['z', 'a'], ['z', 'b'],
   ['z', 'c'], ['z', 'd']]

/-- The same 30 names plus a 31st (`"ze"`, sorting last). -/
def colsA : List Str := colsB ++ [['z', 'e']]

/-- Witness for C7: two single-column sheets with different normalized
column sets get different fingerprints. -/
theorem C7_fingerprint_spec_witness :
    sameRedundancyGroup [['a']] [['b']] = false :=
  (C7_fingerprint_spec [['a']] [['b']] (by decide) (by decide)).2
    (by decide) (by decide) (by decide)

/-- C7 counterexample — the claim fails under the 30-name cap: `colsA` has
31 columns and `colsB` the same minus `"ze"` (sets differing by exactly one
canonical column), yet both sheets receive the same fingerprint and hence
land in the same redundancy group, because the sorted sets agree on their
first 30 names. -/
theorem C7_counterexample :
    sameRedundancyGroup colsA colsB = true ∧
    normColSet colsA = insert ['z', 'e'] (normColSet colsB) ∧
    (['z', 'e'] : Str) ∉ normColSet colsB := by
  refine ⟨by decide, by decide, by decide⟩

/-! ## Header detection -/

/-- `str.contains(r"[A-Za-z]")`: the string has at least one ASCII letter. -/
def containsAlpha (s : Str) : Bool :=
  s.any (fun c => (65 ≤ c.toNat && c.toNat ≤ 90) || (97 ≤ c.toNat && c.toNat ≤ 122))

/-- The stripped, nonempty cells of preview row `i`
(`analyze_spreadsheets.header_confidence`, lines 175-177). -/
def nonEmptyRow (preview : List (List Str)) (i : ℕ) : List Str :=
  ((preview.getD i []).map pyStrip).filter (fun v => decide (v ≠ []))

/-- `non_empty.nunique() / max(1, len(non_empty))` (line 181). -/
def uniquenessRatioRow (nonEmpty : List Str) : ℚ :=
  (nonEmpty.dedup.length : ℚ) / ((max 1 nonEmpty.length : ℕ) : ℚ)

/-- `non_empty.str.contains(r"[A-Za-z]").mean()` (line 182). -/
def alphaRatioRow (nonEmpty : List Str) : ℚ :=
  (nonEmpty.countP containsAlpha : ℚ) / (nonEmpty.length : ℚ)

/-- `(below != "").mean()` over the stripped next row, or `0.0` when there
is no next row (lines 183-186). -/
def belowRatio (preview : List (List Str)) (i : ℕ) : ℚ :=
  if i + 1 < preview.length then
    ((((preview.getD (i + 1) []).map pyStrip).countP
        (fun v => decide (v ≠ [])) : ℚ)) /
      (((preview.getD (i + 1) []).map pyStrip).length : ℚ)
  else 0

/-- `header_confidence` (`analyze_spreadsheets.py`, lines 174-189):
`0.45·unique_ratio + 0.35·alpha_ratio + 0.20·below_has_values`, rounded to 4
decimal places; `0.0` when the row has no nonempty cell. -/
def header_confidence (preview : List (List Str)) (i : ℕ) : ℚ :=
  if (nonEmptyRow preview i).length = 0 then 0
  else
    pyRound 4 ((45 / 100) * uniquenessRatioRow (nonEmptyRow preview i) +
      (35 / 100) * alphaRatioRow (nonEmptyRow preview i) +
      (20 / 100) * belowRatio preview i)

/-- `max(scores, key=lambda t: t[1])` over
`scores = [(idx, g idx) for idx in range(n)]`: Python `max` keeps the FIRST
element attaining the maximum, so ties break toward the smaller index. -/
def bestScore (g : ℕ → ℚ) (n : ℕ) : ℕ × ℚ :=
  match (List.range n).map (fun i => (i, g i)) with
  | [] => (0, 0)
  | s :: ss => ss.foldl (fun b p => if b.2 < p.2 then p else b) s

/-- `detect_header_row` (`analyze_spreadsheets.py`, lines 192-199):
consider the first `min(8, len(preview))` rows; return the argmax of
`header_confidence` (ties toward the smaller index), or `(0, 0.0)` for an
empty preview. -/
def detect_header_row (preview : List (List Str)) : ℕ × ℚ :=
  if min 8 preview.length = 0 then (0, 0)
  else bestScore (header_confidence preview) (min 8 preview.length)

lemma bestScore_succ (g : ℕ → ℚ) (n : ℕ) (hn : 0 < n) :
    bestScore g (n + 1) =
      (if (bestScore g n).2 < g n then (n, g n) else bestScore g n) := by
  obtain ⟨s, ss, h⟩ : ∃ s ss,
      (List.range n).map (fun i => (i, g i)) = s :: ss := by
    cases hc : (List.range n).map (fun i => (i, g i)) with
    | nil =>
      exfalso
      have : (List.range n).length = 0 := by
        simpa using congrArg List.length hc
      simp at this
      omega
    | cons s ss => exact ⟨s, ss, rfl⟩
  unfold bestScore
  rw [List.range_succ, List.map_append, h]
  simp only [List.map_cons, List.map_nil, List.cons_append, List.foldl_append,
    List.foldl_cons, List.foldl_nil]

lemma bestScore_spec (g : ℕ → ℚ) : ∀ n : ℕ, 0 < n →
    (bestScore g n).1 < n ∧ (bestScore g n).2 = g (bestScore g n).1 ∧
    (∀ j < n, g j ≤ (bestScore g n).2) ∧
    (∀ j < (bestScore g n).1, g j < (bestScore g n).2) := by
  intro n
  induction n with
  | zero => intro h; omega
  | succ n ih =>
    intro _
    rcases Nat.eq_zero_or_pos n with rfl | hn
    · have h1 : bestScore g 1 = (0, g 0) := rfl
      rw [h1]
      refine ⟨by omega, rfl, ?_, fun j hj => by omega⟩
      intro j hj
      have hj0 : j = 0 := by omega
      subst hj0
      exact le_refl _
    · obtain ⟨ih1, ih2, ih3, ih4⟩ := ih hn
      rw [bestScore_succ g n hn]
      by_cases hlt : (bestScore g n).2 < g n
      · rw [if_pos hlt]
        refine ⟨by omega, rfl, ?_, ?_⟩
        · intro j hj
          rcases Nat.lt_succ_iff_lt_or_eq.mp hj with hj | rfl
          · exact le_of_lt (lt_of_le_of_lt (ih3 j hj) hlt)
          · exact le_refl _
        · intro j hj
          exact lt_of_le_of_lt (ih3 j hj) hlt
      · rw [if_neg hlt]
        refine ⟨by omega, ih2, ?_, ih4⟩
        intro j hj
        rcases Nat.lt_succ_iff_lt_or_eq.mp hj with hj | rfl
        · exact ih3 j hj
        · exact le_of_not_lt hlt

lemma header_confidence_range (preview : List (List Str))
    (hrows : ∀ r ∈ preview, r ≠ []) (i : ℕ) :
    0 ≤ header_confidence preview i ∧ header_confidence preview i ≤ 1 := by
  unfold header_confidence
  by_cases h0 : (nonEmptyRow preview i).length = 0
  · rw [if_pos h0]
    norm_num
  · rw [if_neg h0]
    have hlen1 : (1 : ℚ) ≤ ((nonEmptyRow preview i).length : ℚ) := by
      exact_mod_cast Nat.one_le_iff_ne_zero.mpr h0
    have hlenpos : (0 : ℚ) < ((nonEmptyRow preview i).length : ℚ) := by linarith
    have hu : 0 ≤ uniquenessRatioRow (nonEmptyRow preview i) ∧
        uniquenessRatioRow (nonEmptyRow preview i) ≤ 1 := by
      unfold uniquenessRatioRow
      rw [Nat.max_eq_right (Nat.one_le_iff_ne_zero.mpr h0)]
      constructor
      · positivity
      · rw [div_le_one hlenpos]
        exact_mod_cast ((nonEmptyRow preview i).dedup_sublist).length_le
    have ha : 0 ≤ alphaRatioRow (nonEmptyRow preview i) ∧
        alphaRatioRow (nonEmptyRow preview i) ≤ 1 := by
      unfold alphaRatioRow
      constructor
      · positivity
      · rw [div_le_one hlenpos]
        exact_mod_cast List.countP_le_length _
    have hb : 0 ≤ belowRatio preview i ∧ belowRatio preview i ≤ 1 := by
      unfold belowRatio
      by_cases hnext : i + 1 < preview.length
      · rw [if_pos hnext]
        have hmem : preview.getD (i + 1) [] ∈ preview := by
          rw [List.getD_eq_getElem _ _ hnext]
          exact List.getElem_mem _
        have hne := hrows _ hmem
        have hlpos : (0 : ℚ) <
            (((preview.getD (i + 1) []).map pyStrip).length : ℚ) := by
          have : (preview.getD (i + 1) []).length ≠ 0 := by
            simpa [List.length_eq_zero] using hne
          rw [List.length_map]
          exact_mod_cast Nat.pos_of_ne_zero this
        constructor
        · positivity
        · rw [div_le_one hlpos]
          exact_mod_cast List.countP_le_length _
      · rw [if_neg hnext]
        norm_num
    constructor
    · apply pyRound_nonneg
      have := hu.1; have := ha.1; have := hb.1
      linarith
    · apply pyRound_le 4 ⟨1, by norm_num⟩
      have := hu.2; have := ha.2; have := hb.2
      linarith

/-- C3 — the header detector returns, over the first `min(8, |preview|)`
candidate rows, the index maximizing the weighted confidence
`0.45·uniqueness + 0.35·alpha-fraction + 0.20·next-row-nonempty-fraction`
with ties broken toward the smaller index, together with that confidence,
which lies in `[0,1]`; an empty preview yields `(0, 0.0)`
(`analyze_spreadsheets.py`, lines 174-199; rows are assumed nonempty, i.e.
the frame has at least one column). -/
theorem C3_detect_header_row (preview : List (List Str))
    (hrows : ∀ r ∈ preview, r ≠ []) :
    (preview = [] → detect_header_row preview = (0, 0)) ∧
    (preview ≠ [] →
      (detect_header_row preview).1 < min 8 preview.length ∧
      (detect_header_row preview).2 =
        header_confidence preview (detect_header_row preview).1 ∧
      0 ≤ (detect_header_row preview).2 ∧ (detect_header_row preview).2 ≤ 1 ∧
      (∀ j < min 8 preview.length,
        header_confidence preview j ≤ (detect_header_row preview).2) ∧
      (∀ j < (detect_header_row preview).1,
        header_confidence preview j < (detect_header_row preview).2)) := by
  constructor
  · intro h
    subst h
    rfl
  · intro hne
    have hpos : 0 < min 8 preview.length := by
      have : preview.length ≠ 0 := by simpa [List.length_eq_zero] using hne
      omega
    have hd : detect_header_row preview =
        bestScore (header_confidence preview) (min 8 preview.length) := by
      unfold detect_header_row
      rw [if_neg (by omega)]
    obtain ⟨h1, h2, h3, h4⟩ := bestScore_spec (header_confidence preview) _ hpos
    rw [hd]
    refine ⟨h1, h2, ?_, ?_, h3, h4⟩
    · rw [h2]
      exact (header_confidence_range preview hrows _).1
    · rw [h2]
      exact (header_confidence_range preview hrows _).2

/-- Witness for C3: a two-row preview with alphabetic headers above numeric
data. -/
theorem C3_detect_header_row_witness :
    (detect_header_row [[['n', 'a', 'm', 'e'], ['i', 'd']],
        [['x'], ['1']]]).1 < 2 ∧
    0 ≤ (detect_header_row [[['n', 'a', 'm', 'e'], ['i', 'd']],
        [['x'], ['1']]]).2 ∧
    (detect_header_row [[['n', 'a', 'm', 'e'], ['i', 'd']],
        [['x'], ['1']]]).2 ≤ 1 := by
  have h := (C3_detect_header_row
    [[['n', 'a', 'm', 'e'], ['i', 'd']], [['x'], ['1']]] (by decide)).2
    (by decide)
  exact ⟨h.1, h.2.2.1, h.2.2.2.1⟩

/-! ## Per-column failure containment -/

/-- The per-column profiling loop of `phased_analyzer_v3.deep_profiles`
(lines 387-416): each column's profile is computed inside
`try: … deep_profiles.append(…) except Exception: pass`, so a column whose
profiler raises (modelled by an `Option`-valued body returning `none`)
contributes nothing and the loop moves on to the next column. -/
def profileColumns {α β : Type} (prof : α → Option β) (cols : List α) : List β :=
  cols.filterMap prof

/-- C9 — a failure while profiling a single column is contained at that
column: with a fallible per-column profiler, a sheet whose column list
contains a failing column `c` yields exactly the profiles of the same sheet
with `c` absent — every sibling of the failing column is profiled
unchanged, and the (total) loop runs to completion
(`phased_analyzer_v3.py`, lines 387-416; `phased_analyzer_v2.py`,
lines 352-381). -/
theorem C9_column_failure_contained {α β : Type} (prof : α → Option β)
    (pre post : List α) (c : α) (hfail : prof c = none) :
    profileColumns prof (pre ++ c :: post) = profileColumns prof (pre ++ post) := by
  unfold profileColumns
  rw [List.filterMap_append, List.filterMap_append, List.filterMap_cons, hfail]

/-- Witness for C9: the profiler failing on column 2 leaves columns 1 and 3
profiled as if 2 were absent. -/
theorem C9_column_failure_contained_witness :
    profileColumns (fun n : ℕ => if n = 2 then none else some n)
        ([1] ++ 2 :: [3]) =
      profileColumns (fun n : ℕ => if n = 2 then none else some n) ([1] ++ [3]) :=
  C9_column_failure_contained (fun n : ℕ => if n = 2 then none else some n)
    [1] [3] 2 (by decide)

/-! ## The alias-to-canonical merge map -/

/-- Association-list lookup, the model of Python dict access. -/
def alookup (x : Str) : List (Str × Str) → Option Str
  | [] => none
  | (k, v) :: t => if x = k then some v else alookup x t

/-- The inner loop of the merge pass (`phased_analyzer_v3.py`,
lines 188-193): compare the fixed canonical candidate `ki` against each
later key `kj`; skip keys already recorded as aliases; record
`merged[kj] = ki` when the similarity test passes.  The
`SequenceMatcher(...).ratio() >= 0.80` comparison is abstracted as a Boolean
similarity predicate `sim`. -/
def mergeInner (sim : Str → Str → Bool) (ki : Str) :
    List Str → List (Str × Str) → List (Str × Str)
  | [], m => m
  | kj :: rest, m =>
    if (alookup kj m).isSome then mergeInner sim ki rest m
    else if sim ki kj then mergeInner sim ki rest ((kj, ki) :: m)
    else mergeInner sim ki rest m

/-- The outer loop (`phased_analyzer_v3.py`, lines 187-193): each key not
already recorded as an alias is compared against every later key. -/
def buildMergedAux (sim : Str → Str → Bool) :
    List Str → List (Str × Str) → List (Str × Str)
  | [], m => m
  | k :: rest, m =>
    if (alookup k m).isSome then buildMergedAux sim rest m
    else buildMergedAux sim rest (mergeInner sim k rest m)

/-- `merged` — the alias → canonical map built over the distinct normalized
names. -/
def buildMerged (sim : Str → Str → Bool) (keys : List Str) : List (Str × Str) :=
  buildMergedAux sim keys []

/-- `merged.get(n, n)` — canonicalization of one name. -/
def resolve (m : List (Str × Str)) (x : Str) : Str := (alookup x m).getD x

lemma mergeInner_lookup_of_not_mem (sim : Str → Str → Bool) (ki : Str) :
    ∀ (rest : List Str) (m : List (Str × Str)) (y : Str), y ∉ rest →
      alookup y (mergeInner sim ki rest m) = alookup y m := by
  intro rest
  induction rest with
  | nil => intro m y _; rfl
  | cons kj rest ih =>
    intro m y hy
    have hyk : y ≠ kj := fun h => hy (h ▸ List.mem_cons_self kj rest)
    have hyr : y ∉ rest := fun h => hy (List.mem_cons_of_mem _ h)
    unfold mergeInner
    by_cases h1 : (alookup kj m).isSome
    · rw [if_pos h1]; exact ih m y hyr
    · rw [if_neg h1]
      by_cases h2 : sim ki kj
      · rw [if_pos h2, ih _ y hyr]
        simp [alookup, hyk]
      · rw [if_neg h2]; exact ih m y hyr

lemma mergeInner_lookup_some (sim : Str → Str → Bool) (ki : Str) :
    ∀ (rest : List Str) (m : List (Str × Str)) (x v : Str),
      alookup x (mergeInner sim ki rest m) = some v →
      alookup x m = some v ∨ (x ∈ rest ∧ v = ki) := by
  intro rest
  induction rest with
  | nil => intro m x v h; exact Or.inl h
  | cons kj rest ih =>
    intro m x v h
    unfold mergeInner at h
    by_cases h1 : (alookup kj m).isSome
    · rw [if_pos h1] at h
      rcases ih m x v h with h' | ⟨hx, hv⟩
      · exact Or.inl h'
      · exact Or.inr ⟨List.mem_cons_of_mem _ hx, hv⟩
    · rw [if_neg h1] at h
      by_cases h2 : sim ki kj
      · rw [if_pos h2] at h
        rcases ih _ x v h with h' | ⟨hx, hv⟩
        · unfold alookup at h'
          by_cases hxk : x = kj
          · rw [if_pos hxk] at h'
            exact Or.inr ⟨hxk ▸ List.mem_cons_self kj rest,
              (Option.some_inj.mp h').symm⟩
          · rw [if_neg hxk] at h'
            exact Or.inl h'
        · exact Or.inr ⟨List.mem_cons_of_mem _ hx, hv⟩
      · rw [if_neg h2] at h
        rcases ih m x v h with h' | ⟨hx, hv⟩
        · exact Or.inl h'
        · exact Or.inr ⟨List.mem_cons_of_mem _ hx, hv⟩

lemma buildMergedAux_inv (sim : Str → Str → Bool) :
    ∀ (ks : List Str) (m : List (Str × Str)), ks.Nodup →
      (∀ x v, alookup x m = some v → alookup v m = none ∧ v ∉ ks) →
      ∀ x v, alookup x (buildMergedAux sim ks m) = some v →
        alookup v (buildMergedAux sim ks m) = none := by
  intro ks
  induction ks with
  | nil =>
    intro m _ hinv x v h
    exact (hinv x v h).1
  | cons k rest ih =>
    intro m hnodup hinv x v h
    have hknr : k ∉ rest := (List.nodup_cons.mp hnodup).1
    have hrest : rest.Nodup := (List.nodup_cons.mp hnodup).2
    unfold buildMergedAux at h ⊢
    by_cases h1 : (alookup k m).isSome
    · rw [if_pos h1] at h ⊢
      refine ih m hrest ?_ x v h
      intro x' v' h'
      obtain ⟨ha, hb⟩ := hinv x' v' h'
      exact ⟨ha, fun hm => hb (List.mem_cons_of_mem _ hm)⟩
    · rw [if_neg h1] at h ⊢
      refine ih (mergeInner sim k rest m) hrest ?_ x v h
      intro x' v' h'
      rcases mergeInner_lookup_some sim k rest m x' v' h' with h'' | ⟨hx', hv⟩
      · obtain ⟨ha, hb⟩ := hinv x' v' h''
        have hvr : v' ∉ rest := fun hm => hb (List.mem_cons_of_mem _ hm)
        exact ⟨(mergeInner_lookup_of_not_mem sim k rest m v' hvr).trans ha, hvr⟩
      · rw [hv]
        exact ⟨(mergeInner_lookup_of_not_mem sim k rest m k hknr).trans
          (Option.not_isSome_iff_eq_none.mp h1), hknr⟩

/-- C10 — the greedy alias → canonical merge map contains no chains: a name
recorded as the canonical of some alias is never itself recorded as an
alias, so canonicalization reaches a fixed point in one application —
resolving any name twice equals resolving it once
(`phased_analyzer_v3.py`, lines 185-193; `phased_analyzer.py`,
lines 203-212; the keys iterated are the distinct keys of a `Counter`,
hence `Nodup`). -/
theorem C10_merge_no_chains (sim : Str → Str → Bool) (keys : List Str)
    (hnodup : keys.Nodup) :
    (∀ x v, alookup x (buildMerged sim keys) = some v →
      alookup v (buildMerged sim keys) = none) ∧
    (∀ x, resolve (buildMerged sim keys) (resolve (buildMerged sim keys) x) =
      resolve (buildMerged sim keys) x) := by
  have hmain : ∀ x v, alookup x (buildMerged sim keys) = some v →
      alookup v (buildMerged sim keys) = none :=
    buildMergedAux_inv sim keys [] hnodup
      (fun x v h => by simp [alookup] at h)
  refine ⟨hmain, ?_⟩
  intro x
  unfold resolve
  cases hx : alookup x (buildMerged sim keys) with
  | none => simp [hx]
  | some v =>
    simp only [hx, Option.getD_some]
    rw [hmain x v hx]
    rfl

/-- Witness for C10: with an always-similar predicate over keys
`["a", "b"]`, the map is `{b ↦ a}` and resolving `"b"` twice equals
resolving it once. -/
theorem C10_merge_no_chains_witness :
    resolve (buildMerged (fun _ _ => true) [['a'], ['b']])
        (resolve (buildMerged (fun _ _ => true) [['a'], ['b']]) ['b']) =
      resolve (buildMerged (fun _ _ => true) [['a'], ['b']]) ['b'] :=
  (C10_merge_no_chains (fun _ _ => true) [['a'], ['b']] (by decide)).2 ['b']

/-! ## Sheet similarity clustering (phased_analyzer_v3, Phase 3) -/

/-- One Phase-1 record as read by the clusterer: file, sheet name, and the
normalized column names. -/
structure SheetRec where
  file : Str
  sheet : Str
  norm_cols : List Str
deriving DecidableEq

/-- `f"{rec['file']}|{rec['sheet']}"`. -/
def skey (r : SheetRec) : Str := r.file ++ '|' :: r.sheet

/-- `{merged.get(n, n) for n in rec["norm_cols"] if n}`
(`phased_analyzer_v3.py`, lines 227-233). -/
def sheetColset (mrg : List (Str × Str)) (r : SheetRec) : Finset Str :=
  ((r.norm_cols.filter (fun n => decide (n ≠ []))).map (resolve mrg)).toFinset

/-- `sheet_colsets.get(k, set())`: the canonical column set of the sheet
with key `k` (keys are distinct, so the first matching record decides). -/
def lookupColset (recs : List SheetRec) (mrg : List (Str × Str)) (k : Str) :
    Finset Str :=
  match recs.find? (fun r => decide (skey r = k)) with
  | some r => sheetColset mrg r
  | none => ∅

/-- `jaccard` from `phased_analyzer_v3.py` (lines 86-89): `0` when both
sets are empty, else `|a ∩ b| / |a ∪ b|`. -/
def jaccardQ (a b : Finset Str) : ℚ :=
  if a = ∅ ∧ b = ∅ then 0 else ((a ∩ b).card : ℚ) / ((a ∪ b).card : ℚ)

/-- The sheet names in first-appearance order — the iteration order of
`sheet_name_groups` (`phased_analyzer_v3.py`, lines 220-223). -/
def snamesOrder (recs : List SheetRec) : List Str :=
  dedupKeepFirst (recs.map (·.sheet))

/-- `sheet_name_groups[sname]`: the keys of the records bearing a sheet
name, in record order. -/
def membersOf (recs : List SheetRec) (sn : Str) : List Str :=
  (recs.filter (fun r => decide (r.sheet = sn))).map skey

/-- One cluster: member keys, union of their canonical column sets, and the
formation method tag. -/
structure Cluster where
  members : List Str
  union_cols : Finset Str
  formedVia : String

/-- The mutable clustering state: `assigned` and `clusters`
(`phased_analyzer_v3.py`, lines 237-239). -/
structure ClusterState where
  assigned : List Str
  clusters : List Cluster

/-- The representative column set of a name group:
`sheet_colsets.get(members[0], set())` (line 245). -/
def repColsOf (recs : List SheetRec) (mrg : List (Str × Str)) (sn : Str) :
    Finset Str :=
  lookupColset recs mrg ((membersOf recs sn).headD [])

/-- The members admitted to a name-affinity group (lines 248-253):
`jaccard(representative, ms) >= 0.30 or ms == representative`. -/
def groupOf (recs : List SheetRec) (mrg : List (Str × Str)) (sn : Str) :
    List Str :=
  (membersOf recs sn).filter (fun m =>
    decide ((3 / 10 : ℚ) ≤ jaccardQ (repColsOf recs mrg sn)
      (lookupColset recs mrg m)) ||
    decide (lookupColset recs mrg m = repColsOf recs mrg sn))

/-- `union_cols |= ms` accumulated over the group members. -/
def unionColsOf (recs : List SheetRec) (mrg : List (Str × Str))
    (group : List Str) : Finset Str :=
  group.foldl (fun u m => u ∪ lookupColset recs mrg m) ∅

/-- Phase A, one sheet-name group (`phased_analyzer_v3.py`, lines 242-258):
skip groups of fewer than two sheets or with an empty representative; when
at least two members pass the Jaccard test, assign them all to a fresh
`sheet-name` cluster. -/
def phaseAStep (recs : List SheetRec) (mrg : List (Str × Str))
    (st : ClusterState) (sn : Str) : ClusterState :=
  if (membersOf recs sn).length < 2 then st
  else if repColsOf recs mrg sn = ∅ then st
  else if 2 ≤ (groupOf recs mrg sn).length then
    { assigned := st.assigned ++ groupOf recs mrg sn,
      clusters := st.clusters ++ [⟨groupOf recs mrg sn,
        unionColsOf recs mrg (groupOf recs mrg sn), "sheet-name"⟩] }
  else st

/-- Phase A over all sheet-name groups. -/
def phaseA (recs : List SheetRec) (mrg : List (Str × Str)) : ClusterState :=
  (snamesOrder recs).foldl (phaseAStep recs mrg) ⟨[], []⟩

/-- The inner loop of Phase B (`phased_analyzer_v3.py`, lines 269-275):
absorb each later still-unassigned key whose column set reaches Jaccard
`>= 0.40` against the cluster's growing union. -/
def phaseBInner (recs : List SheetRec) (mrg : List (Str × Str)) :
    List Str → List Str → Finset Str → List Str →
      List Str × Finset Str × List Str
  | [], members, ccols, assigned => (members, ccols, assigned)
  | kj :: rest, members, ccols, assigned =>
    if kj ∈ assigned then phaseBInner recs mrg rest members ccols assigned
    else if (2 / 5 : ℚ) ≤ jaccardQ ccols (lookupColset recs mrg kj) then
      phaseBInner recs mrg rest (members ++ [kj])
        (ccols ∪ lookupColset recs mrg kj) (assigned ++ [kj])
    else phaseBInner recs mrg rest members ccols assigned

/-- The outer loop of Phase B (`phased_analyzer_v3.py`, lines 261-276):
each still-unassigned remaining key seeds a fresh `jaccard` cluster. -/
def phaseBLoop (recs : List SheetRec) (mrg : List (Str × Str)) :
    List Str → ClusterState → ClusterState
  | [], st => st
  | k :: rest, st =>
    if k ∈ st.assigned then phaseBLoop recs mrg rest st
    else
      match phaseBInner recs mrg rest [k] (lookupColset recs mrg k)
          (st.assigned ++ [k]) with
      | (members, ccols, assigned') =>
        phaseBLoop recs mrg rest
          { assigned := assigned',
            clusters := st.clusters ++ [⟨members, ccols, "jaccard"⟩] }

/-- `remaining = [k for k in sheet_colsets if k not in assigned]`
(line 261). -/
def remainingKeys (recs : List SheetRec) (assigned : List Str) : List Str :=
  (recs.map skey).filter (fun k => decide (k ∉ assigned))

/-- The full clustering pass: Phase A then Phase B. -/
def finalState (recs : List SheetRec) (mrg : List (Str × Str)) : ClusterState :=
  phaseBLoop recs mrg (remainingKeys recs (phaseA recs mrg).assigned)
    (phaseA recs mrg)

/-- `clusters` after both phases. -/
def clusterSheets (recs : List SheetRec) (mrg : List (Str × Str)) :
    List Cluster :=
  (finalState recs mrg).clusters

/-- The invariant carried through clustering: the assigned keys are
distinct, the clusters' member lists concatenate to exactly the assigned
list, and every assigned key is a sheet key. -/
def StInv (recs : List SheetRec) (st : ClusterState) : Prop :=
  st.assigned.Nodup ∧
  (st.clusters.map Cluster.members).flatten = st.assigned ∧
  (∀ k ∈ st.assigned, k ∈ recs.map skey)

lemma nodup_dedupKeepFirstAux : ∀ (l seen : List Str),
    (dedupKeepFirstAux seen l).Nodup := by
  intro l
  induction l with
  | nil => intro seen; exact List.nodup_nil
  | cons b t ih =>
    intro seen
    unfold dedupKeepFirstAux
    by_cases hb : b ∈ seen
    · rw [if_pos hb]; exact ih seen
    · rw [if_neg hb]
      refine List.nodup_cons.mpr ⟨?_, ih (b :: seen)⟩
      intro habs
      exact (mem_dedupKeepFirstAux.mp habs).2 (List.mem_cons_self b seen)

lemma nodup_dedupKeepFirst (l : List Str) : (dedupKeepFirst l).Nodup :=
  nodup_dedupKeepFirstAux l []

lemma skey_inj {recs : List SheetRec} (hkeys : (recs.map skey).Nodup)
    {r1 r2 : SheetRec} (h1 : r1 ∈ recs) (h2 : r2 ∈ recs)
    (he : skey r1 = skey r2) : r1 = r2 :=
  List.inj_on_of_nodup_map hkeys h1 h2 he

lemma mem_membersOf {recs : List SheetRec} {sn : Str} {k : Str} :
    k ∈ membersOf recs sn ↔ ∃ r, r ∈ recs ∧ r.sheet = sn ∧ skey r = k := by
  unfold membersOf
  simp only [List.mem_map, List.mem_filter, decide_eq_true_eq]
  constructor
  · rintro ⟨r, ⟨hr, hsn⟩, hk⟩
    exact ⟨r, hr, hsn, hk⟩
  · rintro ⟨r, hr, hsn, hk⟩
    exact ⟨r, ⟨hr, hsn⟩, hk⟩

lemma nodup_membersOf {recs : List SheetRec}
    (hkeys : (recs.map skey).Nodup) (sn : Str) : (membersOf recs sn).Nodup :=
  ((List.filter_sublist recs).map skey).nodup hkeys

lemma mem_groupOf {recs : List SheetRec} {mrg : List (Str × Str)} {sn k : Str}
    (h : k ∈ groupOf recs mrg sn) : ∃ r, r ∈ recs ∧ r.sheet = sn ∧ skey r = k :=
  mem_membersOf.mp (List.mem_of_mem_filter h)

lemma nodup_groupOf {recs : List SheetRec} {mrg : List (Str × Str)}
    (hkeys : (recs.map skey).Nodup) (sn : Str) : (groupOf recs mrg sn).Nodup :=
  (nodup_membersOf hkeys sn).filter _

/-- The Phase-A invariant: additionally, every assigned key comes from a
record whose sheet name has already been processed. -/
def AInv (recs : List SheetRec) (done : List Str) (st : ClusterState) : Prop :=
  st.assigned.Nodup ∧
  (st.clusters.map Cluster.members).flatten = st.assigned ∧
  (∀ k ∈ st.assigned, ∃ r, r ∈ recs ∧ skey r = k ∧ r.sheet ∈ done)

lemma phaseAStep_inv (recs : List SheetRec) (mrg : List (Str × Str))
    (hkeys : (recs.map skey).Nodup) {done : List Str} {st : ClusterState}
    {sn : Str} (hsn : sn ∉ done) (hinv : AInv recs done st) :
    AInv recs (done ++ [sn]) (phaseAStep recs mrg st sn) := by
  obtain ⟨hnd, hjoin, hmem⟩ := hinv
  have hweak : AInv recs (done ++ [sn]) st := by
    refine ⟨hnd, hjoin, ?_⟩
    intro k hk
    obtain ⟨r, hr, hkr, hd⟩ := hmem k hk
    exact ⟨r, hr, hkr, List.mem_append_left _ hd⟩
  unfold phaseAStep
  by_cases h1 : (membersOf recs sn).length < 2
  · rw [if_pos h1]; exact hweak
  · rw [if_neg h1]
    by_cases h2 : repColsOf recs mrg sn = ∅
    · rw [if_pos h2]; exact hweak
    · rw [if_neg h2]
      by_cases h3 : 2 ≤ (groupOf recs mrg sn).length
      · rw [if_pos h3]
        have hdisj : ∀ a ∈ st.assigned, a ∉ groupOf recs mrg sn := by
          intro a ha habs
          obtain ⟨r', hr', hkr', hd'⟩ := hmem a ha
          obtain ⟨r, hr, hsnr, hkr⟩ := mem_groupOf habs
          have : r = r' := skey_inj hkeys hr hr' (by rw [hkr, hkr'])
          rw [← this] at hd'
          rw [hsnr] at hd'
          exact hsn hd'
        refine ⟨?_, ?_, ?_⟩
        · rw [List.nodup_append]
          exact ⟨hnd, nodup_groupOf hkeys sn, hdisj⟩
        · simp only [List.map_append, List.map_cons, List.map_nil,
            List.flatten_append, List.flatten_cons, List.flatten_nil, List.append_nil]
          rw [hjoin]
        · intro k hk
          rcases List.mem_append.mp hk with hk | hk
          · obtain ⟨r, hr, hkr, hd⟩ := hmem k hk
            exact ⟨r, hr, hkr, List.mem_append_left _ hd⟩
          · obtain ⟨r, hr, hsnr, hkr⟩ := mem_groupOf hk
            exact ⟨r, hr, hkr, List.mem_append_right _ (by simp [hsnr])⟩
      · rw [if_neg h3]; exact hweak

lemma phaseA_fold_inv {recs : List SheetRec} {mrg : List (Str × Str)}
    (hkeys : (recs.map skey).Nodup) :
    ∀ (sns : List Str) (done : List Str) (st : ClusterState), sns.Nodup →
      (∀ sn ∈ sns, sn ∉ done) → AInv recs done st →
      AInv recs (done ++ sns) (sns.foldl (phaseAStep recs mrg) st) := by
  intro sns
  induction sns with
  | nil =>
    intro done st _ _ hinv
    simpa using hinv
  | cons sn rest ih =>
    intro done st hnodup hfresh hinv
    rw [List.foldl_cons]
    have hstep := phaseAStep_inv recs mrg hkeys (hfresh sn (by simp)) hinv
    have hfresh' : ∀ sn' ∈ rest, sn' ∉ done ++ [sn] := by
      intro sn' hsn' habs
      rcases List.mem_append.mp habs with h | h
      · exact hfresh sn' (List.mem_cons_of_mem _ hsn') h
      · have : sn' = sn := by simpa using h
        exact (List.nodup_cons.mp hnodup).1 (this ▸ hsn')
    have := ih (done ++ [sn]) (phaseAStep recs mrg st sn)
      (List.nodup_cons.mp hnodup).2 hfresh' hstep
    rwa [List.append_assoc, List.singleton_append] at this

lemma phaseBInner_spec (recs : List SheetRec) (mrg : List (Str × Str)) :
    ∀ (rest members : List Str) (ccols : Finset Str) (assigned : List Str),
      ∃ Δ : List Str,
        (phaseBInner recs mrg rest members ccols assigned).1 = members ++ Δ ∧
        (phaseBInner recs mrg rest members ccols assigned).2.2 = assigned ++ Δ ∧
        (∀ d ∈ Δ, d ∈ rest ∧ d ∉ assigned) ∧ Δ.Nodup := by
  intro rest
  induction rest with
  | nil =>
    intro members ccols assigned
    exact ⟨[], by simp [phaseBInner], by simp [phaseBInner], by simp,
      List.nodup_nil⟩
  | cons kj rest ih =>
    intro members ccols assigned
    unfold phaseBInner
    by_cases h1 : kj ∈ assigned
    · rw [if_pos h1]
      obtain ⟨Δ, ha, hb, hc, hd⟩ := ih members ccols assigned
      exact ⟨Δ, ha, hb,
        fun d hdm => ⟨List.mem_cons_of_mem _ (hc d hdm).1, (hc d hdm).2⟩, hd⟩
    · rw [if_neg h1]
      by_cases h2 : (2 / 5 : ℚ) ≤ jaccardQ ccols (lookupColset recs mrg kj)
      · rw [if_pos h2]
        obtain ⟨Δ, ha, hb, hc, hd⟩ := ih (members ++ [kj])
          (ccols ∪ lookupColset recs mrg kj) (assigned ++ [kj])
        refine ⟨kj :: Δ, ?_, ?_, ?_, ?_⟩
        · rw [ha]; simp
        · rw [hb]; simp
        · intro d hdm
          rcases List.mem_cons.mp hdm with rfl | hdm
          · exact ⟨List.mem_cons_self _ _, h1⟩
          · refine ⟨List.mem_cons_of_mem _ (hc d hdm).1, ?_⟩
            intro habs
            exact (hc d hdm).2 (List.mem_append_left _ habs)
        · refine List.nodup_cons.mpr ⟨?_, hd⟩
          intro habs
          exact (hc kj habs).2 (List.mem_append_right _ (by simp))
      · rw [if_neg h2]
        obtain ⟨Δ, ha, hb, hc, hd⟩ := ih members ccols assigned
        exact ⟨Δ, ha, hb,
          fun d hdm => ⟨List.mem_cons_of_mem _ (hc d hdm).1, (hc d hdm).2⟩, hd⟩

lemma count_nodup (l : List Str) (h : l.Nodup) (k : Str) :
    l.count k = if k ∈ l then 1 else 0 := by
  induction l with
  | nil => simp
  | cons a t ih =>
    obtain ⟨hat, htn⟩ := List.nodup_cons.mp h
    rw [List.count_cons]
    by_cases hk : k = a
    · subst hk
      simp [ih htn, hat]
    · simp [hk, Ne.symm hk, ih htn, List.mem_cons]

lemma phaseBLoop_spec (recs : List SheetRec) (mrg : List (Str × Str)) :
    ∀ (l : List Str) (st : ClusterState), StInv recs st →
      (∀ k ∈ l, k ∈ recs.map skey) →
      StInv recs (phaseBLoop recs mrg l st) ∧
      (∀ k ∈ l, k ∈ (phaseBLoop recs mrg l st).assigned) ∧
      (∀ k ∈ st.assigned, k ∈ (phaseBLoop recs mrg l st).assigned) := by
  intro l
  induction l with
  | nil =>
    intro st hinv _
    exact ⟨hinv, by simp, fun k hk => hk⟩
  | cons k rest ih =>
    intro st hinv hl
    by_cases hk : k ∈ st.assigned
    · have hstep : phaseBLoop recs mrg (k :: rest) st =
          phaseBLoop recs mrg rest st := by
        conv_lhs => rw [phaseBLoop]
        rw [if_pos hk]
      rw [hstep]
      obtain ⟨hinv', hcov', hmono'⟩ :=
        ih st hinv (fun k' hk' => hl k' (List.mem_cons_of_mem _ hk'))
      refine ⟨hinv', ?_, hmono'⟩
      intro k' hk'
      rcases List.mem_cons.mp hk' with rfl | hk'
      · exact hmono' k' hk
      · exact hcov' k' hk'
    · obtain ⟨Δ, ha, hb, hc, hd⟩ := phaseBInner_spec recs mrg rest [k]
        (lookupColset recs mrg k) (st.assigned ++ [k])
      have hstep : phaseBLoop recs mrg (k :: rest) st =
          phaseBLoop recs mrg rest
            { assigned :=
                (phaseBInner recs mrg rest [k] (lookupColset recs mrg k)
                  (st.assigned ++ [k])).2.2,
              clusters := st.clusters ++
                [⟨(phaseBInner recs mrg rest [k] (lookupColset recs mrg k)
                    (st.assigned ++ [k])).1,
                  (phaseBInner recs mrg rest [k] (lookupColset recs mrg k)
                    (st.assigned ++ [k])).2.1, "jaccard"⟩] } := by
        conv_lhs => rw [phaseBLoop]
        rw [if_neg hk]
      rw [hstep]
      obtain ⟨hnd, hjoin, hmem⟩ := hinv
      have hinv' : StInv recs
          { assigned :=
              (phaseBInner recs mrg rest [k] (lookupColset recs mrg k)
                (st.assigned ++ [k])).2.2,
            clusters := st.clusters ++
              [⟨(phaseBInner recs mrg rest [k] (lookupColset recs mrg k)
                  (st.assigned ++ [k])).1,
                (phaseBInner recs mrg rest [k] (lookupColset recs mrg k)
                  (st.assigned ++ [k])).2.1, "jaccard"⟩] } := by
        refine ⟨?_, ?_, ?_⟩
        · rw [hb, List.nodup_append]
          refine ⟨?_, hd, ?_⟩
          · rw [List.nodup_append]
            refine ⟨hnd, List.nodup_singleton k, ?_⟩
            intro a haa habs
            rw [List.mem_singleton] at habs
            exact hk (habs ▸ haa)
          · intro a haa habs
            exact (hc a habs).2 haa
        · simp only [List.map_append, List.map_cons, List.map_nil,
            List.flatten_append, List.flatten_cons, List.flatten_nil, List.append_nil]
          rw [hjoin, ha, hb, List.append_assoc]
        · intro k' hk'
          rw [hb] at hk'
          rcases List.mem_append.mp hk' with hk' | hk'
          · rcases List.mem_append.mp hk' with hk' | hk'
            · exact hmem k' hk'
            · rw [List.mem_singleton] at hk'
              exact hk' ▸ hl k (by simp)
          · exact hl k' (List.mem_cons_of_mem _ (hc k' hk').1)
      obtain ⟨hinv'', hcov'', hmono''⟩ := ih _ hinv'
        (fun k' hk' => hl k' (List.mem_cons_of_mem _ hk'))
      refine ⟨hinv'', ?_, ?_⟩
      · intro k' hk'
        rcases List.mem_cons.mp hk' with rfl | hk'
        · refine hmono'' k' ?_
          rw [hb]
          exact List.mem_append_left _ (List.mem_append_right _ (by simp))
        · exact hcov'' k' hk'
      · intro k' hk'
        refine hmono'' k' ?_
        rw [hb]
        exact List.mem_append_left _ (List.mem_append_left _ hk')

/-- C1 — clustering is a strict partition of all profiled sheets: after
Phase A (name-affinity grouping) and Phase B (residual greedy Jaccard
clustering), every sheet key appears in the member list of exactly one
cluster — none unassigned, none duplicated (`phased_analyzer_v3.py`,
lines 219-276; sheet keys `file|sheet` are distinct, as they are the keys
of the `sheet_colsets` dict). -/
theorem C1_cluster_partition (recs : List SheetRec) (mrg : List (Str × Str))
    (hkeys : (recs.map skey).Nodup) :
    ∀ k : Str, ((clusterSheets recs mrg).map Cluster.members).flatten.count k =
      if k ∈ recs.map skey then 1 else 0 := by
  have hA : AInv recs ([] ++ snamesOrder recs) (phaseA recs mrg) :=
    phaseA_fold_inv hkeys (snamesOrder recs) [] ⟨[], []⟩
      (nodup_dedupKeepFirst _) (by simp) ⟨List.nodup_nil, rfl, by simp⟩
  have hstA : StInv recs (phaseA recs mrg) := by
    refine ⟨hA.1, hA.2.1, ?_⟩
    intro k hk
    obtain ⟨r, hr, hkr, _⟩ := hA.2.2 k hk
    exact hkr ▸ List.mem_map_of_mem skey hr
  obtain ⟨hfin0, hcov, hmono⟩ := phaseBLoop_spec recs mrg
    (remainingKeys recs (phaseA recs mrg).assigned) (phaseA recs mrg) hstA
    (fun k hk => (List.mem_filter.mp hk).1)
  have hfin : StInv recs (finalState recs mrg) := hfin0
  have hcover : ∀ k ∈ recs.map skey, k ∈ (finalState recs mrg).assigned := by
    intro k hk
    by_cases ha : k ∈ (phaseA recs mrg).assigned
    · exact hmono k ha
    · exact hcov k (List.mem_filter.mpr ⟨hk, by simpa using ha⟩)
  intro k
  have hjoin : ((clusterSheets recs mrg).map Cluster.members).flatten =
      (finalState recs mrg).assigned := hfin.2.1
  rw [hjoin, count_nodup _ hfin.1 k]
  by_cases hk : k ∈ recs.map skey
  · rw [if_pos hk, if_pos (hcover k hk)]
  · rw [if_neg hk, if_neg (fun habs => hk (hfin.2.2 k habs))]

/-- Witness for C1: a one-sheet corpus — the single key is in exactly one
cluster. -/
theorem C1_cluster_partition_witness :
    ((clusterSheets [⟨['f'], ['s'], [['a']]⟩] []).map
        Cluster.members).flatten.count (skey ⟨['f'], ['s'], [['a']]⟩) =
      if skey ⟨['f'], ['s'], [['a']]⟩ ∈
          ([⟨['f'], ['s'], [['a']]⟩] : List SheetRec).map skey then 1 else 0 :=
  C1_cluster_partition [⟨['f'], ['s'], [['a']]⟩] [] (by decide)
    (skey ⟨['f'], ['s'], [['a']]⟩)

end SpreadsheetAnalyzer
